import Mathlib

/-
Verification of `nengo_dl/compat.py`.

The file below is a shallow embedding of the compatibility shim found in
`nengo_dl/compat.py`: the dummy-type machinery (`NoType`,
`make_dummy_type`, `is_dummy_type`), the TensorFlow log filter
(`TFLogFilter.filter`), the version-gated capability resolution (the
module-level assignments selected by comparing parsed dependency
versions against fixed thresholds), and the vendored Keras graph
traversal (`_build_map` / `_build_map_helper`).

Python strings are modelled as Lean `String`s, with the Python string
operations (`startswith`, `lower`, the `in` substring test) re-expressed
over the underlying character lists so that they evaluate by `decide`.
Machine-level concerns (object identity, logging internals) are modelled
by structural equality on the corresponding records, which is faithful
here: the code only ever compares strings and uses nodes of a fixed
graph as set elements, and distinct graph positions are distinct node
objects in Keras.
-/

/-! ## The Python type universe of the module

`compat.py` manipulates four kinds of classes: `object`, the class
`NoType` (whose `__init__` unconditionally raises
`RuntimeError("cannot instantiate")`), the subclasses
`type(name, (NoType,), {})` produced by `make_dummy_type`, and ordinary
classes that do not derive from `NoType`.  `PyType` enumerates that
universe; `basesOf` gives each class its Python base-class list. -/

inductive PyType where
  | obj : PyType
  | noType : PyType
  | dummy (name : String) : PyType
  | real (name : String) : PyType
deriving DecidableEq

/-- The `__bases__` of each class in the module's universe: `NoType`
derives from `object`, `make_dummy_type` results derive from `NoType`,
and ordinary classes derive from `object`. -/
def basesOf : PyType → List PyType
  | .obj => []
  | .noType => [.obj]
  | .dummy _ => [.noType]
  | .real _ => [.obj]

/-- The method-resolution order of each class: the class itself followed
by its ancestors up to `object` (linear, since every class here has a
single base). -/
def mro : PyType → List PyType
  | .obj => [.obj]
  | .noType => [.noType, .obj]
  | .dummy n => [.dummy n, .noType, .obj]
  | .real n => [.real n, .obj]

/-- Python's `issubclass`: CPython answers `issubclass(t, u)` by testing
whether `u` occurs in `t.__mro__`. -/
def issubclass (t u : PyType) : Bool := (mro t).contains u

/-- `make_dummy_type(name)`: `return type(name, (NoType,), {})`. -/
def make_dummy_type (name : String) : PyType := .dummy name

/-- `is_dummy_type(t)`: `return issubclass(t, NoType)`. -/
def is_dummy_type (t : PyType) : Bool := issubclass t .noType

/-- Instantiating a class of the universe, `t(*args, **kwargs)`.
Python resolves `__init__` along the method-resolution order; in this
module only `NoType` defines an `__init__` (which ignores its arguments
and raises `RuntimeError("cannot instantiate")`), and the classes built
by `make_dummy_type` have an empty class dict, so instantiation raises
exactly when the class is a `NoType` subclass. -/
def instantiate (t : PyType) (args : List String) (kwargs : List (String × String)) :
    Except String (PyType × List String × List (String × String)) :=
  if issubclass t .noType then .error "cannot instantiate"
  else .ok (t, args, kwargs)

/-- The declarative subclass relation: reflexive closure of the
base-class edges recorded in `basesOf`. -/
inductive Subclass : PyType → PyType → Prop where
  | refl (t : PyType) : Subclass t t
  | base {t b u : PyType} : b ∈ basesOf t → Subclass b u → Subclass t u

/-! ## Python string primitives

Models of `str.startswith`, `str.lower` (ASCII range, which covers every
pattern the filter compares against) and the `in` substring test, over
character lists. -/

def beginsWith : List Char → List Char → Bool
  | [], _ => true
  | _ :: _, [] => false
  | p :: ps, c :: cs => p == c && beginsWith ps cs

def containsChars (pat : List Char) : List Char → Bool
  | [] => beginsWith pat []
  | c :: cs => beginsWith pat (c :: cs) || containsChars pat cs

/-- Python `pat in s` for strings. -/
def pyIn (pat s : String) : Bool := containsChars pat.data s.data

/-- Python `s.startswith(pat)`. -/
def pyStartsWith (s pat : String) : Bool := beginsWith pat.data s.data

def lowerChar (c : Char) : Char :=
  if 'A' ≤ c ∧ c ≤ 'Z' then Char.ofNat (c.toNat + 32) else c

/-- Python `s.lower()` (ASCII letters). -/
def pyLower (s : String) : String := ⟨s.data.map lowerChar⟩

/-! ## The TensorFlow log filter -/

/-- A logging record as used by `TFLogFilter.filter`: its `args` tuple,
its raw `msg`, and the `pathname` of the emitting module. -/
structure LogRecord where
  args : List String
  msg : String
  pathname : String
deriving DecidableEq

structure TFLogFilter where
  err_on_deprecation : Bool
deriving DecidableEq

/-- `TFLogFilter.filter`.  Raising `AttributeError` is modelled as the
`Except.error` branch carrying the message built from the record; the
formatting performed by `record.getMessage()` is collapsed to `msg`
since the record's `args` never reach the escalation branch's text in a
way any claim depends on. -/
def TFLogFilter.filter (f : TFLogFilter) (record : LogRecord) : Except String Bool :=
  if 1 < record.args.length ∧ record.args.getD 1 "" = "tf.keras.backend.get_session" then
    .ok false
  else if pyStartsWith record.msg "Output steps_run missing from loss dictionary" then
    .ok false
  else if f.err_on_deprecation = true ∧
      (pyIn "deprecation.py" record.pathname = true ∨
        pyIn "deprecated" (pyLower record.msg) = true) then
    .error ("Deprecation warning detected:\n" ++ record.msg)
  else
    .ok true

/-! ## Version parsing and comparison

`compat.py` decides each branch with
`version.parse(installed) < version.parse(threshold)`.  The fragment of
PEP 440 actually exercised is a dotted release with an optional single
pre-release (`aN`/`bN`/`rcN`) or development (`.devN`) suffix; `Version`
records the release segments plus a phase (`0 = dev`, `1 = a`, `2 = b`,
`3 = rc`, `4 = final`) and the suffix number. -/

structure Version where
  release : List Nat
  phase : Nat
  preNum : Nat
deriving DecidableEq

/-- Compare release segment lists, padding the shorter with zeros as
PEP 440 prescribes (`3.1` equals `3.1.0`). -/
def cmpRelease : List Nat → List Nat → Ordering
  | [], bs => if bs.all (· == 0) then .eq else .lt
  | a :: as, [] => if (a :: as).all (· == 0) then .eq else .gt
  | a :: as, b :: bs =>
    if a < b then .lt else if b < a then .gt else cmpRelease as bs

/-- `version.parse a < version.parse b`: release segments first, then
dev < a < b < rc < final, then the suffix number. -/
def versionLt (a b : Version) : Bool :=
  match cmpRelease a.release b.release with
  | .lt => true
  | .gt => false
  | .eq => decide (a.phase < b.phase) || (a.phase == b.phase && decide (a.preNum < b.preNum))

def digitsVal (ds : List Char) : Nat := ds.foldl (fun a c => a * 10 + (c.toNat - 48)) 0

def takeDigits : List Char → List Char × List Char
  | [] => ([], [])
  | c :: cs =>
    if c.isDigit then
      let p := takeDigits cs
      (c :: p.1, p.2)
    else ([], c :: cs)

def parseRelease : Nat → List Char → Option (List Nat × List Char)
  | 0, _ => none
  | fuel + 1, cs =>
    let p := takeDigits cs
    if p.1.isEmpty then none
    else
      match p.2 with
      | '.' :: c :: cs2 =>
        if c.isDigit then
          match parseRelease fuel (c :: cs2) with
          | none => none
          | some q => some (digitsVal p.1 :: q.1, q.2)
        else some ([digitsVal p.1], '.' :: c :: cs2)
      | rest => some ([digitsVal p.1], rest)

def allDigits (cs : List Char) : Bool := cs.all Char.isDigit

def parsePhase : List Char → Option (Nat × Nat)
  | [] => some (4, 0)
  | 'r' :: 'c' :: cs => if !cs.isEmpty && allDigits cs then some (3, digitsVal cs) else none
  | 'a' :: cs => if !cs.isEmpty && allDigits cs then some (1, digitsVal cs) else none
  | 'b' :: cs => if !cs.isEmpty && allDigits cs then some (2, digitsVal cs) else none
  | '.' :: 'd' :: 'e' :: 'v' :: cs =>
    if !cs.isEmpty && allDigits cs then some (0, digitsVal cs) else none
  | _ => none

/-- `version.parse` on the version-string fragment used here. -/
def parseVersion (s : String) : Option Version :=
  match parseRelease (s.data.length + 1) s.data with
  | none => none
  | some (rel, rest) =>
    match parsePhase rest with
    | none => none
    | some pn => some ⟨rel, pn.1, pn.2⟩

/-- The parse of the literal threshold `"2.3.0rc0"`. -/
def tfThresholdVersion : Version := ⟨[2, 3, 0], 3, 0⟩

/-- The parse of the literal threshold `"3.1.0.dev0"`. -/
def nengoThresholdVersion : Version := ⟨[3, 1, 0], 0, 0⟩

/-- `version.parse(installed) < version.parse("2.3.0rc0")`, from the
installed TensorFlow version string. -/
def tfUseLegacy (installed : String) : Option Bool :=
  match parseVersion installed, parseVersion "2.3.0rc0" with
  | some v, some w => some (versionLt v w)
  | _, _ => none

/-- `version.parse(installed) < version.parse("3.1.0.dev0")`, from the
installed nengo version string. -/
def nengoUseLegacy (installed : String) : Option Bool :=
  match parseVersion installed, parseVersion "3.1.0.dev0" with
  | some v, some w => some (versionLt v w)
  | _, _ => none

/-! ## Capability resolution -/

/-- The environment the module observes while it executes: the parsed
versions of the two dependencies and whether the two optional imports
(`nengo.transforms.ConvolutionTranspose` together with
`nengo.builder.transforms.ConvTransposeInc`, and `keras_spiking`)
succeed. -/
structure Env where
  tfVersion : Version
  nengoVersion : Version
  nengoConvTransposeImportOk : Bool
  kerasSpikingImportOk : Bool

/-- A value bound to a module-level capability name. -/
inductive Value where
  | marker (t : PyType)
  | nativeType (importPath : String)
  | nativeFn (name : String)
  | shimFn (name : String)
  | intConst (n : Int)
  | noneConst
deriving DecidableEq

def Value.isMarker : Value → Bool
  | .marker _ => true
  | _ => false

def Value.isNone : Value → Bool
  | .noneConst => true
  | _ => false

/-- A real implementation binding: an imported native type, a native
function, or a legacy shim function (as opposed to an Unavailable
Marker, the constant `1`, or Python `None`). -/
def Value.isRealImpl : Value → Bool
  | .nativeType _ => true
  | .nativeFn _ => true
  | .shimFn _ => true
  | _ => false

/-- `version.parse(tf.__version__) < version.parse("2.3.0rc0")`. -/
def tfLegacy (env : Env) : Bool := versionLt env.tfVersion tfThresholdVersion

/-- `version.parse(nengo.__version__) < version.parse("3.1.0.dev0")`. -/
def nengoLegacy (env : Env) : Bool := versionLt env.nengoVersion nengoThresholdVersion

/-- The sequence of module-level capability assignments of `compat.py`,
in program order.  Later assignments to the same name overwrite earlier
ones, exactly as Python module globals do: `ConvolutionTranspose` and
`ConvTransposeInc` are first bound to fresh dummy types and then, on the
modern-nengo path, rebound by the guarded import (or rebound to fresh
dummy types again when that import raises `ImportError`). -/
def resolveBindings (env : Env) : List (String × Value) :=
  (if tfLegacy env then [("_build_map", Value.shimFn "_build_map_vendored_tf230")]
   else [("_build_map", Value.nativeFn "tensorflow.python.keras.engine.functional._build_map")]) ++
  [("ConvolutionTranspose", Value.marker (make_dummy_type "ConvolutionTranspose")),
   ("ConvTransposeInc", Value.marker (make_dummy_type "ConvTransposeInc"))] ++
  (if nengoLegacy env then
    [("PoissonSpiking", Value.marker (make_dummy_type "PoissonSpiking")),
     ("RegularSpiking", Value.marker (make_dummy_type "RegularSpiking")),
     ("StochasticSpiking", Value.marker (make_dummy_type "StochasticSpiking")),
     ("Tanh", Value.marker (make_dummy_type "Tanh")),
     ("NoTransform", Value.marker (make_dummy_type "NoTransform")),
     ("default_transform", Value.intConst 1),
     ("conn_has_weights", Value.shimFn "conn_has_weights"),
     ("neuron_state", Value.shimFn "neuron_state"),
     ("neuron_step", Value.shimFn "neuron_step"),
     ("to_neurons", Value.shimFn "to_neurons")]
   else
    [("PoissonSpiking", Value.nativeType "nengo.neurons.PoissonSpiking"),
     ("RegularSpiking", Value.nativeType "nengo.neurons.RegularSpiking"),
     ("StochasticSpiking", Value.nativeType "nengo.neurons.StochasticSpiking"),
     ("Tanh", Value.nativeType "nengo.neurons.Tanh"),
     ("NoTransform", Value.nativeType "nengo.transforms.NoTransform")] ++
    (if env.nengoConvTransposeImportOk then
      [("ConvolutionTranspose", Value.nativeType "nengo.transforms.ConvolutionTranspose"),
       ("ConvTransposeInc", Value.nativeType "nengo.builder.transforms.ConvTransposeInc")]
     else
      [("ConvolutionTranspose", Value.marker (make_dummy_type "ConvolutionTranspose")),
       ("ConvTransposeInc", Value.marker (make_dummy_type "ConvTransposeInc"))]) ++
    [("default_transform", Value.noneConst),
     ("conn_has_weights", Value.nativeFn "conn_has_weights"),
     ("neuron_state", Value.nativeFn "neuron_state"),
     ("neuron_step", Value.nativeFn "neuron_step"),
     ("to_neurons", Value.nativeFn "to_neurons")]) ++
  (if env.kerasSpikingImportOk then
    [("SpikingActivation", Value.nativeType "keras_spiking.SpikingActivation"),
     ("Lowpass", Value.nativeType "keras_spiking.Lowpass"),
     ("Alpha", Value.nativeType "keras_spiking.Alpha")]
   else
    [("SpikingActivation", Value.marker (make_dummy_type "keras_spiking_SpikingActivation")),
     ("Lowpass", Value.marker (make_dummy_type "keras_spiking_Lowpass")),
     ("Alpha", Value.marker (make_dummy_type "keras_spiking_Alpha"))])

/-- The binding a name holds once the module has finished executing:
the last assignment in program order wins, as for Python globals. -/
def finalBinding (env : Env) (name : String) : Option Value :=
  (resolveBindings env).reverse.lookup name

/-- The fifteen logical capability names of the claim. -/
def capabilityNames : List String :=
  ["ConvolutionTranspose", "ConvTransposeInc", "PoissonSpiking", "RegularSpiking",
   "StochasticSpiking", "Tanh", "NoTransform", "default_transform", "conn_has_weights",
   "neuron_state", "neuron_step", "to_neurons", "SpikingActivation", "Lowpass", "Alpha"]

/-! ## The vendored Keras graph traversal

`_build_map` walks a layered computation graph.  A tensor's
`_keras_history` names the layer that produced it and the index of the
producing node inside that layer's `_inbound_nodes` list; the traversal
then works on the node `layer._inbound_nodes[node_index]`.  Nodes are
identified by that `(layer, node_index)` position: in Keras each such
position is a distinct node object, so the identity-based Python sets
become sets of positions. -/

structure Tensor where
  layer : Nat
  nodeIndex : Nat
deriving DecidableEq

abbrev NodeId := Nat × Nat

def Tensor.nodeId (t : Tensor) : NodeId := (t.layer, t.nodeIndex)

def NodeId.toTensor (n : NodeId) : Tensor := ⟨n.1, n.2⟩

/-- A Keras `Node`: the layer it belongs to (`outbound_layer`), its
`inbound_layers`, and the flattening of its `input_tensors`. -/
structure Node where
  outboundLayer : Nat
  inboundLayers : List Nat
  inputTensors : List Tensor
deriving DecidableEq

structure Layer where
  name : String
  inboundNodes : List Node
deriving DecidableEq

structure Graph where
  layers : List Layer
deriving DecidableEq

/-- `layer._inbound_nodes[node_index]` for the layer and index stored in
the tensor's `_keras_history`. -/
def lookupNode (g : Graph) (t : Tensor) : Option Node :=
  (g.layers[t.layer]?).bind fun L => L.inboundNodes[t.nodeIndex]?

def layerName (g : Graph) (ℓ : Nat) : String :=
  match g.layers[ℓ]? with
  | none => ""
  | some L => L.name

/-- The traversal state of `_build_map`: `finished_nodes`,
`nodes_in_progress`, `nodes_in_decreasing_depth` and `layer_indices`. -/
structure TState where
  finished : List NodeId
  inProgress : List NodeId
  order : List NodeId
  layerIndices : List (Nat × Nat)
deriving DecidableEq

def initState : TState := ⟨[], [], [], []⟩

inductive BuildErr where
  | outOfFuel : BuildErr
  | badTensor (t : Tensor) : BuildErr
  | cycle (t : Tensor) (layer : String) : BuildErr
deriving DecidableEq

/-- `if layer not in layer_indices: layer_indices[layer] = len(layer_indices)`. -/
def updLayerIndices (ℓ : Nat) (li : List (Nat × Nat)) : List (Nat × Nat) :=
  if (li.lookup ℓ).isSome then li else li ++ [(ℓ, li.length)]

/-- The state just before recursing into a node's inputs: record the
layer's traversal index and add the node to `nodes_in_progress`. -/
def pushState (t : Tensor) (s : TState) : TState :=
  ⟨s.finished, t.nodeId :: s.inProgress, s.order, updLayerIndices t.layer s.layerIndices⟩

/-- The state after the inputs have been traversed:
`finished_nodes.add(node)`, `nodes_in_progress.remove(node)`,
`nodes_in_decreasing_depth.append(node)`. -/
def popState (t : Tensor) (s : TState) : TState :=
  ⟨t.nodeId :: s.finished, s.inProgress.erase t.nodeId, s.order ++ [t.nodeId], s.layerIndices⟩

/-- The input tensors `_build_map_helper` recurses into: none when
`node.inbound_layers` is empty (the `if node.inbound_layers:` guard),
otherwise `tf.nest.flatten(node.input_tensors)`. -/
def nodeInputs (node : Node) : List Tensor :=
  if node.inboundLayers.isEmpty then [] else node.inputTensors

/-- A `for` loop over tensors threading the traversal state left to
right through `f` and stopping at the first raised error: used for the
`for input_tensor in tf.nest.flatten(node.input_tensors):` loop of
`_build_map_helper` and the `for output in tf.nest.flatten(outputs):`
loop of `_build_map`. -/
def goInputs (f : Tensor → TState → Except BuildErr TState) :
    List Tensor → TState → Except BuildErr TState
  | [], s => .ok s
  | t :: ts, s =>
    match f t s with
    | .error e => .error e
    | .ok s' => goInputs f ts s'

/-- `_build_map_helper(tensor, ...)`.  The `fuel` argument only bounds
the recursion depth so that the definition is total; `buildMap` below
supplies one more than the number of nodes of the graph, which the
adequacy lemma shows is never exhausted. -/
def buildMapHelper (g : Graph) : Nat → Tensor → TState → Except BuildErr TState
  | 0, _, _ => .error .outOfFuel
  | fuel + 1, t, s =>
    match lookupNode g t with
    | none => .error (.badTensor t)
    | some node =>
      if t.nodeId ∈ s.finished then .ok s
      else if t.nodeId ∈ s.inProgress then .error (.cycle t (layerName g t.layer))
      else
        match goInputs (fun t' s' => buildMapHelper g fuel t' s') (nodeInputs node) (pushState t s) with
        | .error e => .error e
        | .ok s3 => .ok (popState t s3)

/-- All `(layer, node_index)` positions of the graph. -/
def allIds (g : Graph) : List NodeId :=
  (List.range g.layers.length).flatMap fun ℓ =>
    (List.range (((g.layers[ℓ]?).map fun L => L.inboundNodes.length).getD 0)).map fun i => (ℓ, i)

def nodeCount (g : Graph) : Nat := (allIds g).toFinset.card

/-- The value `_build_map` produces: the node ordering, the per-layer
traversal indices, and the `node.layer = node.outbound_layer` alias
written onto every recorded node by the final loop. -/
structure BuildResult where
  order : List NodeId
  layerIndices : List (Nat × Nat)
  layerAlias : List (NodeId × Nat)
deriving DecidableEq

/-- `node.outbound_layer` of the node at a position. -/
def aliasLayer (g : Graph) (n : NodeId) : Nat :=
  match lookupNode g n.toTensor with
  | none => 0
  | some node => node.outboundLayer

/-- `_build_map(outputs)`. -/
def buildMap (g : Graph) (outputs : List Tensor) : Except BuildErr BuildResult :=
  match goInputs (fun t s => buildMapHelper g (nodeCount g + 1) t s) outputs initState with
  | .error e => .error e
  | .ok s => .ok ⟨s.order, s.layerIndices, s.order.map fun n => (n, aliasLayer g n)⟩

/-- The positions the traversal recurses into from a given position. -/
def directChildren (g : Graph) (n : NodeId) : List NodeId :=
  match lookupNode g n.toTensor with
  | none => []
  | some node => (nodeInputs node).map Tensor.nodeId

/-- Reachability along the traversal's recursion edges. -/
inductive Reaches (g : Graph) : NodeId → NodeId → Prop where
  | refl (n : NodeId) : Reaches g n n
  | step {a b c : NodeId} : b ∈ directChildren g a → Reaches g b c → Reaches g a c

/-- Well-formedness of a graph: every input tensor a traversed node
mentions resolves to a node of the graph. -/
def WF (g : Graph) : Bool :=
  g.layers.all fun L => L.inboundNodes.all fun nd =>
    nd.inboundLayers.isEmpty || nd.inputTensors.all fun t => (lookupNode g t).isSome

/-- The invariant the traversal maintains on its state. -/
structure TInv (g : Graph) (s : TState) : Prop where
  nodupOrder : s.order.Nodup
  orderFinished : ∀ n : NodeId, n ∈ s.order ↔ n ∈ s.finished
  disjFin : ∀ n : NodeId, n ∈ s.finished → n ∉ s.inProgress
  closed : ∀ n : NodeId, n ∈ s.finished → ∀ c ∈ directChildren g n, c ∈ s.finished
  topo : ∀ a b : NodeId, b ∈ s.order → a ∈ directChildren g b →
    s.order.indexOf a < s.order.indexOf b
  layerIdx : ∀ n : NodeId, n ∈ s.order → (s.layerIndices.lookup n.1).isSome = true

/-- How one (successful) helper call relates its input and output
states. -/
def Evolves (g : Graph) (s s' : TState) : Prop :=
  s'.inProgress = s.inProgress ∧
  (∀ n : NodeId, n ∈ s.finished → n ∈ s'.finished) ∧
  (∀ n : NodeId, n ∈ s'.finished → n ∈ s.finished ∨ n ∉ s.inProgress) ∧
  (∃ tl, s'.order = s.order ++ tl) ∧
  (∀ ℓ : Nat, (s.layerIndices.lookup ℓ).isSome = true →
    (s'.layerIndices.lookup ℓ).isSome = true) ∧
  (TInv g s → TInv g s')

/-- The number of graph positions not currently in progress: the
measure showing the fuel `buildMap` supplies is enough. -/
def remaining (g : Graph) (s : TState) : Nat :=
  ((allIds g).toFinset \ s.inProgress.toFinset).card

/-- Whether a traversal outcome is the cycle error. -/
def isCycleResult : Except BuildErr BuildResult → Bool
  | .error (.cycle _ _) => true
  | _ => false

/-! ## Concrete instances used by the witnesses -/

/-- A diamond-shaped graph: one input layer, one shared middle layer,
two output layers that both consume the middle layer's tensor. -/
def wG : Graph := ⟨[
  ⟨"inp", [⟨0, [], [⟨0, 0⟩]⟩]⟩,
  ⟨"mid", [⟨1, [0], [⟨0, 0⟩]⟩]⟩,
  ⟨"out1", [⟨2, [1], [⟨1, 0⟩]⟩]⟩,
  ⟨"out2", [⟨3, [1], [⟨1, 0⟩]⟩]⟩]⟩

def wOut : List Tensor := [⟨2, 0⟩, ⟨3, 0⟩]

/-- The value `buildMap wG wOut` computes to. -/
def wRes : BuildResult :=
  ⟨[(0, 0), (1, 0), (2, 0), (3, 0)],
   [(2, 0), (1, 1), (0, 2), (3, 3)],
   [((0, 0), 0), ((1, 0), 1), ((2, 0), 2), ((3, 0), 3)]⟩

/-- A two-node graph whose nodes feed each other: a cycle. -/
def cG : Graph := ⟨[⟨"a", [⟨0, [1], [⟨1, 0⟩]⟩]⟩, ⟨"b", [⟨1, [0], [⟨0, 0⟩]⟩]⟩]⟩

def cOut : List Tensor := [⟨0, 0⟩]

/-- An environment with both dependencies modern and all optional
imports succeeding. -/
def envModernAll : Env := ⟨⟨[2, 4, 0], 4, 0⟩, ⟨[3, 1, 0], 4, 0⟩, true, true⟩

/-- An environment with both dependencies below threshold and all
optional imports failing. -/
def envLegacyAll : Env := ⟨⟨[2, 2, 0], 4, 0⟩, ⟨[3, 0, 0], 4, 0⟩, false, false⟩

/-! # Theorems

## The dummy-type machinery -/

theorem issubclass_self (t : PyType) : issubclass t t = true := by
  cases t <;> simp [issubclass, mro]

theorem subclass_of_issubclass {t u : PyType} (h : issubclass t u = true) : Subclass t u := by
  have hNoObj : Subclass PyType.noType PyType.obj :=
    Subclass.base (by simp [basesOf]) (Subclass.refl _)
  cases t with
  | obj =>
    simp [issubclass, mro] at h
    exact h ▸ Subclass.refl _
  | noType =>
    simp [issubclass, mro] at h
    rcases h with h | h
    · exact h ▸ Subclass.refl _
    · exact h ▸ hNoObj
  | dummy n =>
    simp [issubclass, mro] at h
    rcases h with h | h | h
    · exact h ▸ Subclass.refl _
    · exact h ▸ Subclass.base (t := PyType.dummy n) (by simp [basesOf]) (Subclass.refl _)
    · exact h ▸ Subclass.base (t := PyType.dummy n) (by simp [basesOf]) hNoObj
  | real n =>
    simp [issubclass, mro] at h
    rcases h with h | h
    · exact h ▸ Subclass.refl _
    · exact h ▸ Subclass.base (t := PyType.real n) (by simp [basesOf]) (Subclass.refl _)

theorem issubclass_of_subclass {t u : PyType} (h : Subclass t u) : issubclass t u = true := by
  induction h with
  | refl t => exact issubclass_self t
  | @base t b u hb hs ih =>
    cases t <;> simp [basesOf] at hb <;> subst hb <;>
      simp [issubclass, mro] at ih ⊢ <;> tauto

/-- `issubclass` decides the declarative subclass relation. -/
theorem issubclass_iff (t u : PyType) : issubclass t u = true ↔ Subclass t u :=
  ⟨subclass_of_issubclass, issubclass_of_subclass⟩

/-- Claim C1: for every Unavailable Marker type — the base `NoType` and
every type returned by `make_dummy_type`, under any name — an attempt to
instantiate it, with any positional or keyword arguments, raises the
construction-blocked error instead of producing a value. -/
theorem marker_instantiation_blocked (name : String) (args : List String)
    (kwargs : List (String × String)) :
    instantiate PyType.noType args kwargs = .error "cannot instantiate" ∧
    instantiate (make_dummy_type name) args kwargs = .error "cannot instantiate" := by
  refine ⟨?_, ?_⟩ <;> simp [instantiate, make_dummy_type, issubclass, mro]

/-- Claim C10: `is_dummy_type` answers `true` on every `make_dummy_type`
result and `false` on every type that is not a `NoType` subclass, so the
round trip always identifies a marker and the single type-check idiom
separates markers from real implementations. -/
theorem dummy_type_round_trip (name : String) (t : PyType)
    (h : ¬ Subclass t PyType.noType) :
    is_dummy_type (make_dummy_type name) = true ∧ is_dummy_type t = false := by
  constructor
  · simp [is_dummy_type, make_dummy_type, issubclass, mro]
  · by_cases hd : is_dummy_type t = true
    · exact absurd ((issubclass_iff t .noType).1 hd) h
    · simpa using hd

theorem dummy_type_round_trip_witness :
    is_dummy_type (make_dummy_type "Foo") = true ∧
    is_dummy_type (PyType.real "int") = false :=
  dummy_type_round_trip "Foo" (PyType.real "int")
    (fun hc => absurd ((issubclass_iff _ _).2 hc) (by decide))

/-! ## The log filter -/

/-- Shared helper: any record matching one of the two spurious patterns
is filtered out, whatever the filter's flag. -/
theorem filter_spurious (f : TFLogFilter) (r : LogRecord)
    (h : (1 < r.args.length ∧ r.args.getD 1 "" = "tf.keras.backend.get_session") ∨
      pyStartsWith r.msg "Output steps_run missing from loss dictionary" = true) :
    TFLogFilter.filter f r = .ok false := by
  unfold TFLogFilter.filter
  rcases h with h | h
  · rw [if_pos h]
  · by_cases h1 : 1 < r.args.length ∧ r.args.getD 1 "" = "tf.keras.backend.get_session"
    · rw [if_pos h1]
    · rw [if_neg h1, if_pos h]

/-- Claim C4: every record matching one of the two known spurious
patterns — second argument equal to `tf.keras.backend.get_session`, or
message starting with `Output steps_run missing from loss dictionary` —
is suppressed (`filter` returns `False`), for every value of
`err_on_deprecation`. -/
theorem filter_suppresses_spurious (f : TFLogFilter) (r : LogRecord)
    (h : (1 < r.args.length ∧ r.args.getD 1 "" = "tf.keras.backend.get_session") ∨
      pyStartsWith r.msg "Output steps_run missing from loss dictionary" = true) :
    TFLogFilter.filter f r = .ok false :=
  filter_spurious f r h

theorem filter_suppresses_spurious_witness :
    TFLogFilter.filter ⟨true⟩ ⟨["x", "tf.keras.backend.get_session"], "m", "p"⟩ = .ok false ∧
    TFLogFilter.filter ⟨false⟩
      ⟨[], "Output steps_run missing from loss dictionary for model", "p"⟩ = .ok false :=
  ⟨filter_suppresses_spurious ⟨true⟩ _ (Or.inl ⟨by decide, by decide⟩),
   filter_suppresses_spurious ⟨false⟩ _ (Or.inr (by decide))⟩

/-- Claim C5: on a record matching neither spurious pattern, `filter`
raises the escalated-deprecation error when `err_on_deprecation` is on
and the record is deprecation-flavored, and passes the record through
unchanged (returning `True`, raising nothing) when the flag is off. -/
theorem filter_escalates_deprecation (f : TFLogFilter) (r : LogRecord)
    (h1 : ¬ (1 < r.args.length ∧ r.args.getD 1 "" = "tf.keras.backend.get_session"))
    (h2 : pyStartsWith r.msg "Output steps_run missing from loss dictionary" = false) :
    (f.err_on_deprecation = true →
      (pyIn "deprecation.py" r.pathname = true ∨ pyIn "deprecated" (pyLower r.msg) = true) →
      TFLogFilter.filter f r = .error ("Deprecation warning detected:\n" ++ r.msg)) ∧
    (f.err_on_deprecation = false → TFLogFilter.filter f r = .ok true) := by
  unfold TFLogFilter.filter
  rw [if_neg h1, if_neg (by simp [h2])]
  constructor
  · intro hf hd
    rw [if_pos ⟨hf, hd⟩]
  · intro hf
    rw [if_neg (by simp [hf])]

theorem filter_escalates_deprecation_witness :
    TFLogFilter.filter ⟨true⟩ ⟨[], "this function is deprecated", "util.py"⟩ =
      .error ("Deprecation warning detected:\n" ++ "this function is deprecated") ∧
    TFLogFilter.filter ⟨false⟩ ⟨[], "this function is deprecated", "util.py"⟩ = .ok true :=
  ⟨(filter_escalates_deprecation ⟨true⟩ _ (by decide) (by decide)).1 rfl (Or.inr (by decide)),
   (filter_escalates_deprecation ⟨false⟩ _ (by decide) (by decide)).2 rfl⟩

/-- Claim C9 (implicit): suppression precedes escalation — a record
matching a spurious pattern is filtered out without raising even when
`err_on_deprecation` is `true` and the record is deprecation-flavored. -/
theorem filter_suppression_precedes_escalation (r : LogRecord)
    (h : (1 < r.args.length ∧ r.args.getD 1 "" = "tf.keras.backend.get_session") ∨
      pyStartsWith r.msg "Output steps_run missing from loss dictionary" = true)
    (_hdep : pyIn "deprecated" (pyLower r.msg) = true ∨ pyIn "deprecation.py" r.pathname = true) :
    TFLogFilter.filter ⟨true⟩ r = .ok false :=
  filter_spurious ⟨true⟩ r h

theorem filter_suppression_precedes_escalation_witness :
    TFLogFilter.filter ⟨true⟩
      ⟨["x", "tf.keras.backend.get_session"], "get_session is deprecated", "deprecation.py"⟩ =
      .ok false :=
  filter_suppression_precedes_escalation _ (Or.inl ⟨by decide, by decide⟩)
    (Or.inl (by decide))

/-! ## Version gating -/

theorem cmpRelease_self (l : List Nat) : cmpRelease l l = .eq := by
  induction l with
  | nil => simp [cmpRelease]
  | cons a as ih => simp [cmpRelease, ih]

/-- The comparison the resolver performs is strict: no version is below
itself. -/
theorem versionLt_irrefl (v : Version) : versionLt v v = false := by
  simp [versionLt, cmpRelease_self, Nat.lt_irrefl]

/-- The binding `conn_has_weights` receives, as a function of the
version gate alone. -/
theorem finalBinding_conn_has_weights (env : Env) :
    finalBinding env "conn_has_weights" =
      some (if nengoLegacy env then Value.shimFn "conn_has_weights"
            else Value.nativeFn "conn_has_weights") := by
  cases h1 : tfLegacy env <;> cases h2 : nengoLegacy env <;>
    cases h3 : env.nengoConvTransposeImportOk <;> cases h4 : env.kerasSpikingImportOk <;>
      simp only [finalBinding, resolveBindings, h1, h2, h3, h4] <;> rfl

/-- Claim C3: for every dependency version string, the resolver selects
the legacy shim path exactly when the parsed version is strictly below
the threshold (`2.3.0rc0` for TensorFlow, `3.1.0.dev0` for nengo), and
the native path otherwise; a version exactly equal to a threshold takes
the native path. -/
theorem version_threshold_gate (s : String) (v : Version) (h : parseVersion s = some v) :
    tfUseLegacy s = some (versionLt v tfThresholdVersion) ∧
    nengoUseLegacy s = some (versionLt v nengoThresholdVersion) ∧
    (v = tfThresholdVersion → tfUseLegacy s = some false) ∧
    (v = nengoThresholdVersion → nengoUseLegacy s = some false) ∧
    (∀ env : Env, env.nengoVersion = v →
      finalBinding env "conn_has_weights" =
        some (if versionLt v nengoThresholdVersion then Value.shimFn "conn_has_weights"
              else Value.nativeFn "conn_has_weights")) := by
  have htf : parseVersion "2.3.0rc0" = some tfThresholdVersion := by decide
  have hng : parseVersion "3.1.0.dev0" = some nengoThresholdVersion := by decide
  refine ⟨?_, ?_, ?_, ?_, ?_⟩
  · simp [tfUseLegacy, h, htf]
  · simp [nengoUseLegacy, h, hng]
  · intro hv
    subst hv
    simp [tfUseLegacy, h, htf, versionLt_irrefl]
  · intro hv
    subst hv
    simp [nengoUseLegacy, h, hng, versionLt_irrefl]
  · intro env he
    rw [finalBinding_conn_has_weights]
    simp [nengoLegacy, he]

theorem version_threshold_gate_witness :
    tfUseLegacy "2.2.0" = some true ∧ tfUseLegacy "2.3.0rc0" = some false ∧
    tfUseLegacy "2.3.0" = some false ∧ nengoUseLegacy "3.0.0" = some true ∧
    nengoUseLegacy "3.1.0.dev0" = some false ∧ nengoUseLegacy "3.1.0" = some false := by
  refine ⟨?_, ?_, ?_, ?_, ?_, ?_⟩
  · rw [(version_threshold_gate "2.2.0" ⟨[2, 2, 0], 4, 0⟩ (by decide)).1]
    decide
  · exact (version_threshold_gate "2.3.0rc0" tfThresholdVersion (by decide)).2.2.1 rfl
  · rw [(version_threshold_gate "2.3.0" ⟨[2, 3, 0], 4, 0⟩ (by decide)).1]
    decide
  · rw [(version_threshold_gate "3.0.0" ⟨[3, 0, 0], 4, 0⟩ (by decide)).2.1]
    decide
  · exact (version_threshold_gate "3.1.0.dev0" nengoThresholdVersion (by decide)).2.2.2.1 rfl
  · rw [(version_threshold_gate "3.1.0" ⟨[3, 1, 0], 4, 0⟩ (by decide)).2.1]
    decide

/-! ## Capability bindings -/

/-- Claim C2 (amended): after resolution every logical capability name
is bound to exactly one value; except for `default_transform`, that
value is a real implementation or an Unavailable Marker and never
Python `None`; `default_transform` is bound to the constant `1` exactly
on the legacy nengo path and to `None` exactly on the modern path; and
when an optional sub-dependency import fails the affected names degrade
to Unavailable Markers instead of the failure propagating. -/
theorem capability_bindings_resolved (env : Env) (name : String)
    (h : name ∈ capabilityNames) :
    (finalBinding env name).isSome = true ∧
    (name ≠ "default_transform" →
      (finalBinding env name).any (fun v => v.isRealImpl || v.isMarker) = true ∧
      (finalBinding env name).any Value.isNone = false) ∧
    (name = "default_transform" →
      (nengoLegacy env = true → finalBinding env name = some (Value.intConst 1)) ∧
      (nengoLegacy env = false → finalBinding env name = some Value.noneConst)) ∧
    (env.kerasSpikingImportOk = false →
      name = "SpikingActivation" ∨ name = "Lowpass" ∨ name = "Alpha" →
      (finalBinding env name).any Value.isMarker = true) ∧
    (nengoLegacy env = false → env.nengoConvTransposeImportOk = false →
      name = "ConvolutionTranspose" ∨ name = "ConvTransposeInc" →
      (finalBinding env name).any Value.isMarker = true) := by
  cases h1 : tfLegacy env <;> cases h2 : nengoLegacy env <;>
    cases h3 : env.nengoConvTransposeImportOk <;> cases h4 : env.kerasSpikingImportOk <;>
      fin_cases h <;>
        simp only [finalBinding, resolveBindings, h1, h2, h3, h4] <;> decide

/-- Counterexample to claim C2 as stated: with a modern nengo installed
the name `default_transform` is bound to Python `None`, which is neither
a real implementation object nor an Unavailable Marker. -/
theorem default_transform_bound_to_none :
    finalBinding envModernAll "default_transform" = some Value.noneConst ∧
    Value.noneConst.isMarker = false ∧ Value.noneConst.isNone = true := by
  refine ⟨rfl, rfl, rfl⟩

theorem capability_bindings_resolved_witness :
    (finalBinding envModernAll "Tanh").any (fun v => v.isRealImpl || v.isMarker) = true ∧
    (finalBinding envLegacyAll "SpikingActivation").any Value.isMarker = true ∧
    finalBinding envLegacyAll "default_transform" = some (Value.intConst 1) ∧
    finalBinding envModernAll "default_transform" = some Value.noneConst :=
  ⟨((capability_bindings_resolved envModernAll "Tanh" (by decide)).2.1 (by decide)).1,
   (capability_bindings_resolved envLegacyAll "SpikingActivation" (by decide)).2.2.2.1 rfl
     (Or.inl rfl),
   ((capability_bindings_resolved envLegacyAll "default_transform" (by decide)).2.2.1
     rfl).1 rfl,
   ((capability_bindings_resolved envModernAll "default_transform" (by decide)).2.2.1
     rfl).2 rfl⟩

/-! ## Graph traversal: state-evolution lemmas -/

theorem toTensor_nodeId (t : Tensor) : t.nodeId.toTensor = t := by
  cases t
  rfl

theorem directChildren_eq (g : Graph) (t : Tensor) (node : Node)
    (hl : lookupNode g t = some node) :
    directChildren g t.nodeId = (nodeInputs node).map Tensor.nodeId := by
  simp [directChildren, toTensor_nodeId, hl]

theorem lookup_append_isSome {α β : Type} [BEq α] (k : α) (l l' : List (α × β))
    (h : (l.lookup k).isSome = true) : ((l ++ l').lookup k).isSome = true := by
  induction l with
  | nil => simp [List.lookup] at h
  | cons p ps ih =>
    rcases p with ⟨a, b⟩
    by_cases hk : (k == a) = true
    · simp [List.lookup, hk]
    · simp only [Bool.not_eq_true] at hk
      simp [List.lookup, hk] at h ⊢
      exact ih h

theorem lookup_append_none {α β : Type} [BEq α] (k : α) (l l' : List (α × β))
    (h : l.lookup k = none) : (l ++ l').lookup k = l'.lookup k := by
  induction l with
  | nil => simp
  | cons p ps ih =>
    rcases p with ⟨a, b⟩
    by_cases hk : (k == a) = true
    · simp [List.lookup, hk] at h
    · simp only [Bool.not_eq_true] at hk
      simp [List.lookup, hk] at h ⊢
      exact ih h

theorem updLayerIndices_mono (ℓ k : Nat) (li : List (Nat × Nat))
    (h : (li.lookup k).isSome = true) :
    ((updLayerIndices ℓ li).lookup k).isSome = true := by
  unfold updLayerIndices
  split
  · exact h
  · exact lookup_append_isSome k li _ h

theorem updLayerIndices_self (ℓ : Nat) (li : List (Nat × Nat)) :
    ((updLayerIndices ℓ li).lookup ℓ).isSome = true := by
  unfold updLayerIndices
  split
  · next h => exact h
  · next h =>
    have hnone : li.lookup ℓ = none := by
      cases hx : li.lookup ℓ with
      | none => rfl
      | some v => exact absurd (by simp [hx]) h
    rw [lookup_append_none _ _ _ hnone]
    simp [List.lookup]

theorem evolves_rfl (g : Graph) (s : TState) : Evolves g s s :=
  ⟨rfl, fun _ h => h, fun _ h => Or.inl h, ⟨[], by simp⟩, fun _ h => h, id⟩

theorem evolves_trans (g : Graph) (s1 s2 s3 : TState)
    (h1 : Evolves g s1 s2) (h2 : Evolves g s2 s3) : Evolves g s1 s3 := by
  obtain ⟨a1, b1, c1, ⟨t1, d1⟩, e1, f1⟩ := h1
  obtain ⟨a2, b2, c2, ⟨t2, d2⟩, e2, f2⟩ := h2
  refine ⟨a2.trans a1, fun n h => b2 n (b1 n h), ?_,
    ⟨t1 ++ t2, by rw [d2, d1, List.append_assoc]⟩,
    fun ℓ h => e2 ℓ (e1 ℓ h), fun h => f2 (f1 h)⟩
  intro n h
  rcases c2 n h with h' | h'
  · exact c1 n h'
  · rw [a1] at h'
    exact Or.inr h'

theorem tinv_init (g : Graph) : TInv g initState := by
  refine ⟨?_, ?_, ?_, ?_, ?_, ?_⟩ <;> simp [initState]

theorem tinv_push (g : Graph) (t : Tensor) (s : TState)
    (hf : t.nodeId ∉ s.finished) (hI : TInv g s) : TInv g (pushState t s) := by
  refine ⟨hI.nodupOrder, hI.orderFinished, ?_, hI.closed, hI.topo, ?_⟩
  · intro n hn
    simp only [pushState, List.mem_cons, not_or]
    exact ⟨fun he => hf (he ▸ hn), hI.disjFin n hn⟩
  · intro n hn
    exact updLayerIndices_mono _ _ _ (hI.layerIdx n hn)

theorem bIndexOf_cons {α : Type} [BEq α] (a b : α) (l : List α) :
    (b :: l).indexOf a = if (b == a) = true then 0 else l.indexOf a + 1 := by
  simp [List.indexOf, List.findIdx_cons, Bool.cond_eq_ite]

theorem bIndexOf_append_of_mem {α : Type} [BEq α] [LawfulBEq α] (l' : List α)
    {a : α} {l : List α} (h : a ∈ l) : (l ++ l').indexOf a = l.indexOf a := by
  induction l with
  | nil => simp at h
  | cons b bs ih =>
    rw [List.cons_append, bIndexOf_cons, bIndexOf_cons]
    by_cases hb : (b == a) = true
    · rw [if_pos hb, if_pos hb]
    · have h' : a ∈ bs := by
        rcases List.mem_cons.1 h with rfl | h'
        · exact absurd (by simp) hb
        · exact h'
      rw [if_neg hb, if_neg hb, ih h']

theorem bIndexOf_append_of_not_mem {α : Type} [BEq α] [LawfulBEq α] (l' : List α)
    {a : α} {l : List α} (h : a ∉ l) :
    (l ++ l').indexOf a = l.length + l'.indexOf a := by
  induction l with
  | nil => simp
  | cons b bs ih =>
    have hb : ¬ (b == a) = true := fun hc => h (by simp [eq_of_beq hc])
    rw [List.cons_append, bIndexOf_cons, if_neg hb,
      ih (fun hc => h (List.mem_cons_of_mem _ hc))]
    simp [List.length_cons]
    omega

theorem bIndexOf_lt_length {α : Type} [BEq α] [LawfulBEq α] {a : α} {l : List α}
    (h : a ∈ l) : l.indexOf a < l.length := by
  induction l with
  | nil => simp at h
  | cons b bs ih =>
    rw [bIndexOf_cons]
    by_cases hb : (b == a) = true
    · rw [if_pos hb]
      simp
    · have h' : a ∈ bs := by
        rcases List.mem_cons.1 h with rfl | h'
        · exact absurd (by simp) hb
        · exact h'
      rw [if_neg hb]
      simpa using Nat.succ_lt_succ (ih h')

/-- The effect of finishing a node: if the recursion into the node's
inputs evolved the pushed state into `s3` and (under the invariant) put
every input's node into the finished set, then popping the node evolves
the original state and finishes the node. -/
theorem step_spec (g : Graph) (t : Tensor) (node : Node) (s s3 : TState)
    (hl : lookupNode g t = some node)
    (hf : t.nodeId ∉ s.finished) (hp : t.nodeId ∉ s.inProgress)
    (hE : Evolves g (pushState t s) s3)
    (hC : TInv g (pushState t s) → ∀ t' ∈ nodeInputs node, t'.nodeId ∈ s3.finished) :
    Evolves g s (popState t s3) ∧ t.nodeId ∈ (popState t s3).finished := by
  obtain ⟨hip, hmono, hnew, ⟨tl, hord⟩, hli, hinv⟩ := hE
  have hip' : s3.inProgress = t.nodeId :: s.inProgress := hip
  have hord' : s3.order = s.order ++ tl := hord
  have hpopip : (popState t s3).inProgress = s.inProgress := by
    simp [popState, hip', List.erase_cons_head]
  refine ⟨⟨hpopip, ?_, ?_, ?_, ?_, ?_⟩, by simp [popState]⟩
  · intro n hn
    exact List.mem_cons_of_mem _ (hmono n hn)
  · intro n hn
    rcases List.mem_cons.1 hn with he | hn'
    · exact Or.inr (he ▸ hp)
    · rcases hnew n hn' with h | h
      · exact Or.inl h
      · exact Or.inr fun hc => h (by simp [pushState, List.mem_cons, hc])
  · exact ⟨tl ++ [t.nodeId], by simp [popState, hord']⟩
  · intro ℓ hℓ
    exact hli ℓ (updLayerIndices_mono _ _ _ hℓ)
  · intro hI
    have hIP : TInv g (pushState t s) := tinv_push g t s hf hI
    have hI3 : TInv g s3 := hinv hIP
    have hnotfin : t.nodeId ∉ s3.finished := by
      intro hc
      rcases hnew _ hc with h | h
      · exact hf h
      · exact h (by simp [pushState])
    have hnotord : t.nodeId ∉ s3.order := fun hc => hnotfin ((hI3.orderFinished _).1 hc)
    have hchild : ∀ c ∈ directChildren g t.nodeId, c ∈ s3.finished := by
      intro c hc
      rw [directChildren_eq g t node hl] at hc
      rcases List.mem_map.1 hc with ⟨t', ht', rfl⟩
      exact hC hIP t' ht'
    refine ⟨?_, ?_, ?_, ?_, ?_, ?_⟩
    · -- order stays duplicate-free
      simp only [popState]
      exact List.Nodup.append hI3.nodupOrder (List.nodup_singleton _)
        (fun a ha hb => hnotord ((List.mem_singleton.1 hb) ▸ ha))
    · intro n
      simp only [popState, List.mem_append, List.mem_singleton, List.mem_cons]
      rw [hI3.orderFinished n]
      tauto
    · intro n hn
      rw [hpopip]
      rcases List.mem_cons.1 hn with he | hn'
      · exact he ▸ hp
      · have := hI3.disjFin n hn'
        rw [hip'] at this
        exact fun hc => this (List.mem_cons_of_mem _ hc)
    · intro n hn c hc
      simp only [popState, List.mem_cons] at hn ⊢
      rcases hn with rfl | hn'
      · exact Or.inr (hchild c hc)
      · exact Or.inr (hI3.closed n hn' c hc)
    · intro a b hb hab
      simp only [popState] at hb ⊢
      rcases List.mem_append.1 hb with hb3 | hbn
      · have hbfin : b ∈ s3.finished := (hI3.orderFinished b).1 hb3
        have hafin : a ∈ s3.finished := hI3.closed b hbfin a hab
        have haord : a ∈ s3.order := (hI3.orderFinished a).2 hafin
        rw [bIndexOf_append_of_mem _ haord, bIndexOf_append_of_mem _ hb3]
        exact hI3.topo a b hb3 hab
      · have hb' : b = t.nodeId := by simpa using hbn
        subst hb'
        have hafin : a ∈ s3.finished := hchild a hab
        have haord : a ∈ s3.order := (hI3.orderFinished a).2 hafin
        rw [bIndexOf_append_of_mem _ haord, bIndexOf_append_of_not_mem _ hnotord]
        have hlt := bIndexOf_lt_length haord
        rw [bIndexOf_cons]
        simp only [beq_self_eq_true, if_true]
        omega
    · intro n hn
      simp only [popState, List.mem_append, List.mem_singleton] at hn
      rcases hn with hn3 | hne
      · exact hI3.layerIdx n hn3
      · subst hne
        exact hli _ (updLayerIndices_self _ _)

/-- The loop lemma: if every call to `f` evolves the state and (under
the invariant) finishes the visited tensor's node, the loop evolves the
state and finishes every visited node. -/
theorem goInputs_spec (g : Graph) (f : Tensor → TState → Except BuildErr TState)
    (hf : ∀ t s s', f t s = .ok s' → Evolves g s s' ∧ (TInv g s → t.nodeId ∈ s'.finished)) :
    ∀ ts s s', goInputs f ts s = .ok s' →
      Evolves g s s' ∧ (TInv g s → ∀ t ∈ ts, t.nodeId ∈ s'.finished) := by
  intro ts
  induction ts with
  | nil =>
    intro s s' h
    simp only [goInputs] at h
    cases h
    exact ⟨evolves_rfl g s, by simp⟩
  | cons t ts ih =>
    intro s s' h
    simp only [goInputs] at h
    cases h1 : f t s with
    | error e => rw [h1] at h; cases h
    | ok s1 =>
      rw [h1] at h
      obtain ⟨hE1, hfin1⟩ := hf t s s1 h1
      obtain ⟨hE2, hfin2⟩ := ih s1 s' h
      refine ⟨evolves_trans g s s1 s' hE1 hE2, ?_⟩
      intro hI t' ht'
      have hI1 : TInv g s1 := hE1.2.2.2.2.2 hI
      rcases List.mem_cons.1 ht' with rfl | ht'
      · exact hE2.2.1 _ (hfin1 hI)
      · exact hfin2 hI1 t' ht'

/-- The helper evolves the state and, under the invariant, finishes the
tensor's node. -/
theorem buildMapHelper_spec (g : Graph) :
    ∀ fuel t s s', buildMapHelper g fuel t s = .ok s' →
      Evolves g s s' ∧ (TInv g s → t.nodeId ∈ s'.finished) := by
  intro fuel
  induction fuel with
  | zero =>
    intro t s s' h
    simp only [buildMapHelper] at h
    cases h
  | succ fuel ih =>
    intro t s s' h
    simp only [buildMapHelper] at h
    cases hl : lookupNode g t with
    | none => rw [hl] at h; cases h
    | some node =>
      rw [hl] at h
      simp only at h
      by_cases hfin : t.nodeId ∈ s.finished
      · rw [if_pos hfin] at h
        cases h
        exact ⟨evolves_rfl g s, fun _ => hfin⟩
      · rw [if_neg hfin] at h
        by_cases hp : t.nodeId ∈ s.inProgress
        · rw [if_pos hp] at h
          cases h
        · rw [if_neg hp] at h
          cases hrec : goInputs (fun t' s' => buildMapHelper g fuel t' s')
              (nodeInputs node) (pushState t s) with
          | error e => rw [hrec] at h; cases h
          | ok s3 =>
            rw [hrec] at h
            cases h
            have hgo := goInputs_spec g _ (fun t'' s'' s''' hh => ih t'' s'' s''' hh)
              (nodeInputs node) (pushState t s) s3 hrec
            obtain ⟨hE, hmem⟩ := step_spec g t node s s3 hl hfin hp hgo.1 hgo.2
            exact ⟨hE, fun _ => hmem⟩

/-! ## Graph traversal: the supplied fuel is sufficient -/

theorem mem_allIds (g : Graph) (n : NodeId) :
    n ∈ allIds g ↔ (lookupNode g n.toTensor).isSome = true := by
  obtain ⟨ℓ, i⟩ := n
  show (ℓ, i) ∈ allIds g ↔ (lookupNode g ⟨ℓ, i⟩).isSome = true
  unfold allIds lookupNode
  simp only [List.mem_flatMap, List.mem_range, List.mem_map]
  constructor
  · rintro ⟨ℓ', hℓ', i', hi', he⟩
    have h1 : ℓ' = ℓ := congrArg Prod.fst he
    have h2 : i' = i := congrArg Prod.snd he
    rw [h1] at hℓ' hi'
    rw [h2] at hi'
    cases hx : g.layers[ℓ]? with
    | none =>
      rw [hx] at hi'
      simp at hi'
    | some L =>
      rw [hx] at hi'
      simp only [Option.map_some', Option.getD_some] at hi'
      simp [hx, List.getElem?_eq_getElem hi']
  · intro h
    cases hx : g.layers[ℓ]? with
    | none =>
      simp [hx] at h
    | some L =>
      simp only [hx, Option.some_bind] at h
      have hi : i < L.inboundNodes.length := by
        cases hy : L.inboundNodes[i]? with
        | none => simp [hy] at h
        | some nd => exact (List.getElem?_eq_some.1 hy).1
      have hℓ : ℓ < g.layers.length := by
        by_contra hc
        rw [List.getElem?_eq_none (Nat.le_of_not_lt hc)] at hx
        cases hx
      exact ⟨ℓ, hℓ, i, by simp [hx, hi], rfl⟩

theorem wf_children (g : Graph) (hwf : WF g = true) (t : Tensor) (node : Node)
    (hl : lookupNode g t = some node) :
    ∀ t' ∈ nodeInputs node, (lookupNode g t').isSome = true := by
  intro t' ht'
  unfold nodeInputs at ht'
  by_cases he : node.inboundLayers.isEmpty = true
  · rw [if_pos he] at ht'
    cases ht'
  · rw [if_neg he] at ht'
    have hmem : ∃ L ∈ g.layers, node ∈ L.inboundNodes := by
      unfold lookupNode at hl
      cases hx : g.layers[t.layer]? with
      | none => simp [hx] at hl
      | some L =>
        simp only [hx, Option.some_bind] at hl
        exact ⟨L, List.getElem?_mem hx, List.getElem?_mem hl⟩
    obtain ⟨L, hL, hnode⟩ := hmem
    simp only [WF, List.all_eq_true] at hwf
    have h2 := hwf L hL node hnode
    rw [Bool.or_eq_true] at h2
    rcases h2 with h2 | h2
    · exact absurd h2 he
    · rw [List.all_eq_true] at h2
      exact h2 t' ht'

/-- Pushing a fresh valid node strictly decreases the measure. -/
theorem remaining_push (g : Graph) (t : Tensor) (s : TState)
    (hv : (lookupNode g t).isSome = true) (hp : t.nodeId ∉ s.inProgress) :
    remaining g (pushState t s) + 1 = remaining g s := by
  have hmem : t.nodeId ∈ (allIds g).toFinset \ s.inProgress.toFinset := by
    rw [Finset.mem_sdiff, List.mem_toFinset, List.mem_toFinset]
    exact ⟨(mem_allIds g t.nodeId).2 (by rw [toTensor_nodeId]; exact hv), hp⟩
  have hset : (allIds g).toFinset \ (pushState t s).inProgress.toFinset =
      ((allIds g).toFinset \ s.inProgress.toFinset).erase t.nodeId := by
    ext x
    simp only [pushState, List.toFinset_cons, Finset.mem_sdiff, Finset.mem_insert,
      Finset.mem_erase, List.mem_toFinset, not_or]
    tauto
  unfold remaining
  rw [hset, Finset.card_erase_of_mem hmem]
  have hpos : 0 < ((allIds g).toFinset \ s.inProgress.toFinset).card :=
    Finset.card_pos.2 ⟨_, hmem⟩
  omega

/-- The loop never runs out of fuel if each call does not. -/
theorem goInputs_total (g : Graph) (F : Nat) (f : Tensor → TState → Except BuildErr TState)
    (hok : ∀ t s s', f t s = .ok s' → s'.inProgress = s.inProgress)
    (htot : ∀ t s, (lookupNode g t).isSome = true → remaining g s < F →
      (∃ s', f t s = .ok s') ∨ (∃ t' nm, f t s = .error (.cycle t' nm))) :
    ∀ ts s, (∀ t ∈ ts, (lookupNode g t).isSome = true) → remaining g s < F →
      (∃ s', goInputs f ts s = .ok s') ∨
      (∃ t' nm, goInputs f ts s = .error (.cycle t' nm)) := by
  intro ts
  induction ts with
  | nil =>
    intro s _ _
    exact Or.inl ⟨s, rfl⟩
  | cons t ts ih =>
    intro s hv hr
    rcases htot t s (hv t (List.mem_cons_self t ts)) hr with ⟨s1, h1⟩ | ⟨t', nm, h1⟩
    · have hr1 : remaining g s1 < F := by
        unfold remaining
        rw [hok t s s1 h1]
        exact hr
      rcases ih s1 (fun t' ht' => hv t' (List.mem_cons_of_mem _ ht')) hr1 with
        ⟨s2, h2⟩ | ⟨t', nm, h2⟩
      · exact Or.inl ⟨s2, by simp only [goInputs, h1]; exact h2⟩
      · exact Or.inr ⟨t', nm, by simp only [goInputs, h1]; exact h2⟩
    · exact Or.inr ⟨t', nm, by simp only [goInputs, h1]⟩

/-- With more fuel than unvisited positions, the helper answers either
success or the cycle error: it never exhausts the fuel and never fails
to resolve a tensor. -/
theorem buildMapHelper_total (g : Graph) (hwf : WF g = true) :
    ∀ fuel t s, (lookupNode g t).isSome = true → remaining g s < fuel →
      (∃ s', buildMapHelper g fuel t s = .ok s') ∨
      (∃ t' nm, buildMapHelper g fuel t s = .error (.cycle t' nm)) := by
  intro fuel
  induction fuel with
  | zero =>
    intro t s _ hr
    exact absurd hr (Nat.not_lt_zero _)
  | succ fuel ih =>
    intro t s hv hr
    cases hl : lookupNode g t with
    | none => rw [hl] at hv; cases hv
    | some node =>
      by_cases hfin : t.nodeId ∈ s.finished
      · exact Or.inl ⟨s, by simp only [buildMapHelper, hl]; rw [if_pos hfin]⟩
      · by_cases hp : t.nodeId ∈ s.inProgress
        · refine Or.inr ⟨t, layerName g t.layer, ?_⟩
          simp only [buildMapHelper, hl]
          rw [if_neg hfin, if_pos hp]
        · have hr2 : remaining g (pushState t s) < fuel := by
            have := remaining_push g t s hv hp
            omega
          have hlist := goInputs_total g fuel
            (fun t' s' => buildMapHelper g fuel t' s')
            (fun t'' s'' s''' hh => ((buildMapHelper_spec g fuel t'' s'' s''' hh).1).1)
            (fun t'' s'' hv'' hr'' => ih t'' s'' hv'' hr'')
            (nodeInputs node) (pushState t s) (wf_children g hwf t node hl) hr2
          rcases hlist with ⟨s3, h3⟩ | ⟨t', nm, h3⟩
          · refine Or.inl ⟨popState t s3, ?_⟩
            simp only [buildMapHelper, hl]
            rw [if_neg hfin, if_neg hp, h3]
          · refine Or.inr ⟨t', nm, ?_⟩
            simp only [buildMapHelper, hl]
            rw [if_neg hfin, if_neg hp, h3]

/-- `_build_map` either succeeds or reports a cycle. -/
theorem buildMap_total (g : Graph) (outputs : List Tensor) (hwf : WF g = true)
    (hv : ∀ t ∈ outputs, (lookupNode g t).isSome = true) :
    (∃ r, buildMap g outputs = .ok r) ∨
    (∃ t nm, buildMap g outputs = .error (.cycle t nm)) := by
  have hinit : remaining g initState < nodeCount g + 1 := by
    unfold remaining nodeCount initState
    simp
  have h := goInputs_total g (nodeCount g + 1)
    (fun t s => buildMapHelper g (nodeCount g + 1) t s)
    (fun t s s' hh => ((buildMapHelper_spec g _ t s s' hh).1).1)
    (fun t s hvt hrt => buildMapHelper_total g hwf (nodeCount g + 1) t s hvt hrt)
    outputs initState hv hinit
  rcases h with ⟨s', hs⟩ | ⟨t', nm, hs⟩
  · exact Or.inl ⟨⟨s'.order, s'.layerIndices, s'.order.map fun n => (n, aliasLayer g n)⟩,
      by unfold buildMap; rw [hs]⟩
  · exact Or.inr ⟨t', nm, by unfold buildMap; rw [hs]⟩

/-! ## Graph traversal: the claims -/

/-- A successful `_build_map` run leaves a state satisfying the
invariant, whose order/indices are the returned ones and whose finished
set contains every requested output's node. -/
theorem buildMap_ok_spec (g : Graph) (outputs : List Tensor) (r : BuildResult)
    (hr : buildMap g outputs = .ok r) :
    ∃ s : TState, TInv g s ∧ r.order = s.order ∧ r.layerIndices = s.layerIndices ∧
      r.layerAlias = s.order.map (fun n => (n, aliasLayer g n)) ∧
      (∀ t ∈ outputs, t.nodeId ∈ s.finished) := by
  unfold buildMap at hr
  cases hs : goInputs (fun t s => buildMapHelper g (nodeCount g + 1) t s) outputs initState with
  | error e => rw [hs] at hr; cases hr
  | ok s =>
    rw [hs] at hr
    cases hr
    have hgo := goInputs_spec g _ (fun t s s' hh => buildMapHelper_spec g _ t s s' hh)
      outputs initState s hs
    exact ⟨s, hgo.1.2.2.2.2.2 (tinv_init g), rfl, rfl, rfl, hgo.2 (tinv_init g)⟩

/-- The finished set is closed under reachability. -/
theorem tinv_reaches (g : Graph) (s : TState) (hI : TInv g s) :
    ∀ a b : NodeId, Reaches g a b → a ∈ s.finished → b ∈ s.finished := by
  intro a b h
  induction h with
  | refl n => exact id
  | step hb _ ih => exact fun ha => ih (hI.closed _ ha _ hb)

/-- No node of the finished set lies on a cycle: the recorded order is
strictly decreasing along recursion edges. -/
theorem tinv_no_cycle (g : Graph) (s : TState) (hI : TInv g s) (n : NodeId)
    (hfin : n ∈ s.finished)
    (hcyc : Relation.TransGen (fun a b => b ∈ directChildren g a) n n) : False := by
  have key : ∀ a b : NodeId, Relation.TransGen (fun a b => b ∈ directChildren g a) a b →
      a ∈ s.order → b ∈ s.order ∧ s.order.indexOf b < s.order.indexOf a := by
    intro a b h
    induction h with
    | single hab =>
      intro ha
      have hbfin : _ ∈ s.finished := hI.closed a ((hI.orderFinished a).1 ha) _ hab
      exact ⟨(hI.orderFinished _).2 hbfin, hI.topo _ a ha hab⟩
    | tail _ hbc ih =>
      intro ha
      obtain ⟨hbord, hblt⟩ := ih ha
      have hcfin : _ ∈ s.finished := hI.closed _ ((hI.orderFinished _).1 hbord) _ hbc
      refine ⟨(hI.orderFinished _).2 hcfin, ?_⟩
      have := hI.topo _ _ hbord hbc
      omega
  have hord : n ∈ s.order := (hI.orderFinished n).2 hfin
  have := key n n hcyc hord
  omega

theorem bcount_eq_one_of_nodup_mem {α : Type} [BEq α] [LawfulBEq α] {a : α} {l : List α}
    (hd : l.Nodup) (h : a ∈ l) : l.count a = 1 := by
  induction l with
  | nil => simp at h
  | cons b bs ih =>
    rw [List.count_cons]
    rcases List.mem_cons.1 h with rfl | h'
    · have h0 : bs.count a = 0 := List.count_eq_zero.2 (List.nodup_cons.1 hd).1
      simp [h0]
    · have hne2 : ¬ b = a := fun he => (List.nodup_cons.1 hd).1 (by rw [he]; exact h')
      have hne3 : ¬ a = b := fun he => hne2 he.symm
      rw [ih (List.nodup_cons.1 hd).2 h']
      simp [hne2, hne3]

theorem lookup_map_self {α β : Type} [BEq α] [LawfulBEq α] (f : α → β) :
    ∀ (l : List α), l.Nodup → ∀ a ∈ l, (l.map fun x => (x, f x)).lookup a = some (f a) := by
  intro l
  induction l with
  | nil =>
    intro _ a ha
    cases ha
  | cons b bs ih =>
    intro hd a ha
    simp only [List.map_cons, List.lookup]
    rcases List.mem_cons.1 ha with rfl | ha'
    · simp
    · have hab : ¬(a == b) = true := fun he =>
        (List.nodup_cons.1 hd).1 ((eq_of_beq he) ▸ ha')
      simp only [hab, Bool.false_eq_true, if_false, cond_false]
      exact ih (List.nodup_cons.1 hd).2 a ha'

/-- Claim C6: in an acyclic graph, a node reachable from two of the
requested outputs (a shared subgraph) is recorded exactly once in the
output ordering — the finished-nodes set short-circuits the second
encounter, so the node is not reprocessed. -/
theorem buildMap_shared_node_once (g : Graph) (outputs : List Tensor) (r : BuildResult)
    (hr : buildMap g outputs = .ok r)
    (t1 t2 : Tensor) (h1 : t1 ∈ outputs) (_h2 : t2 ∈ outputs) (_hne : t1 ≠ t2)
    (n : NodeId) (hre1 : Reaches g t1.nodeId n) (_hre2 : Reaches g t2.nodeId n) :
    r.order.count n = 1 := by
  obtain ⟨s, hI, hord, _, _, hfin⟩ := buildMap_ok_spec g outputs r hr
  have hn : n ∈ s.order :=
    (hI.orderFinished n).2 (tinv_reaches g s hI _ _ hre1 (hfin t1 h1))
  rw [hord]
  exact bcount_eq_one_of_nodup_mem hI.nodupOrder hn

theorem buildMap_shared_node_once_witness :
    wRes.order.count ((1 : Nat), (0 : Nat)) = 1 :=
  buildMap_shared_node_once wG wOut wRes rfl ⟨2, 0⟩ ⟨3, 0⟩ (by decide) (by decide)
    (by decide) (1, 0) (Reaches.step (by decide) (Reaches.refl _))
    (Reaches.step (by decide) (Reaches.refl _))

/-- Claim C7: on a graph with a self-loop or back-edge reachable from
the requested outputs, `_build_map` raises the structural cycle error —
which names the offending tensor and layer — and returns no partial
ordering. -/
theorem buildMap_cycle_error (g : Graph) (outputs : List Tensor)
    (hwf : WF g = true) (hv : ∀ t ∈ outputs, (lookupNode g t).isSome = true)
    (t : Tensor) (ht : t ∈ outputs) (n : NodeId) (hre : Reaches g t.nodeId n)
    (hcyc : Relation.TransGen (fun a b => b ∈ directChildren g a) n n) :
    isCycleResult (buildMap g outputs) = true := by
  rcases buildMap_total g outputs hwf hv with ⟨r, hr⟩ | ⟨t', nm, hr⟩
  · exfalso
    obtain ⟨s, hI, _, _, _, hfin⟩ := buildMap_ok_spec g outputs r hr
    exact tinv_no_cycle g s hI n (tinv_reaches g s hI _ _ hre (hfin t ht)) hcyc
  · rw [hr]
    rfl

theorem buildMap_cycle_error_witness : isCycleResult (buildMap cG cOut) = true :=
  buildMap_cycle_error cG cOut (by decide) (by decide) ⟨0, 0⟩ (by decide) (0, 0)
    (Reaches.refl _)
    (Relation.TransGen.head (b := ((1 : Nat), (0 : Nat))) (by decide)
      (Relation.TransGen.single (by decide)))

/-- Claim C8: a successful `_build_map` returns an ordering in which
every node appears after all of its input nodes (inputs toward
outputs), every recorded node's layer has a traversal index, and every
recorded node is annotated with a layer alias equal to its
`outbound_layer`. -/
theorem buildMap_topological (g : Graph) (outputs : List Tensor) (r : BuildResult)
    (hr : buildMap g outputs = .ok r) :
    (∀ b ∈ r.order, ∀ a ∈ directChildren g b,
      a ∈ r.order ∧ r.order.indexOf a < r.order.indexOf b) ∧
    (∀ n ∈ r.order, (r.layerIndices.lookup n.1).isSome = true) ∧
    (∀ n ∈ r.order, r.layerAlias.lookup n = some (aliasLayer g n)) := by
  obtain ⟨s, hI, hord, hli, hal, _⟩ := buildMap_ok_spec g outputs r hr
  rw [hord, hli, hal]
  refine ⟨?_, ?_, ?_⟩
  · intro b hb a hab
    have hafin : a ∈ s.finished := hI.closed b ((hI.orderFinished b).1 hb) a hab
    exact ⟨(hI.orderFinished a).2 hafin, hI.topo a b hb hab⟩
  · exact fun n hn => hI.layerIdx n hn
  · exact fun n hn => lookup_map_self (aliasLayer g) s.order hI.nodupOrder n hn

theorem buildMap_topological_witness :
    wRes.order.indexOf ((0 : Nat), (0 : Nat)) < wRes.order.indexOf ((1 : Nat), (0 : Nat)) ∧
    (wRes.layerIndices.lookup 1).isSome = true ∧
    wRes.layerAlias.lookup ((1 : Nat), (0 : Nat)) = some 1 := by
  have h := buildMap_topological wG wOut wRes rfl
  exact ⟨(h.1 (1, 0) (by decide) (0, 0) (by decide)).2, h.2.1 (1, 0) (by decide),
    h.2.2 (1, 0) (by decide)⟩
